import Mathlib

/-!
# Verification of the rs8583 ISO 8583 core

A shallow embedding of the rs8583 library (src/bitmap.rs, src/codec.rs,
src/spec.rs, src/msg.rs, src/field.rs, src/error.rs) together with proofs
about its parse/serialize pipeline.

Modelling conventions:
* Bytes are `Nat` values; byte buffers are `List Nat`.  Hypotheses
  `∀ b ∈ buf, b < 256` stand in for the `u8` type where overflow matters.
* A `bytes::Bytes` cursor is passed explicitly: a parse step consumes a
  prefix of the list and returns the value together with the rest.
* Fallible operations return `PResult`: `ok`, `err msg` for
  `RS8583Error::ParseError { error: msg }`, and `crash` for a Rust panic
  (`unwrap` on `None`, out-of-bounds `Vec` indexing).
* Buffer-appending functions (`serialize`, `serialize_prefix`, …) are
  modelled as pure functions returning the bytes they would append; the
  caller concatenates, exactly as the `&mut BytesMut` versions do.
-/

set_option maxRecDepth 100000

namespace RS8583

/-- Result of a fallible rs8583 operation: success, a
`RS8583Error::ParseError` carrying its message, or a Rust panic. -/
inductive PResult (α : Type) where
  | ok : α → PResult α
  | err : String → PResult α
  | crash : PResult α
deriving DecidableEq, Repr

/-- Character-set choice, from src/codec.rs (`enum Encoding`). -/
inductive Encoding where
  | ASCII
  | EBCDIC
deriving DecidableEq, Repr

/-- Transport framing choice, from src/codec.rs (`enum Framing`);
recorded but never read by the core. -/
inductive Framing where
  | Unframed
  | MHeader
  | VHeader
deriving DecidableEq, Repr

/-- Length-prefix format, from src/codec.rs (`enum VariableLengthFormat`). -/
inductive VariableLengthFormat where
  | Symbolic
  | Byte
deriving DecidableEq, Repr

/-- Source `struct Codec` from src/codec.rs; `Default` gives all-ASCII,
unframed, symbolic. -/
structure Codec where
  length_encoding : Encoding := .ASCII
  data_encoding : Encoding := .ASCII
  framing : Framing := .Unframed
  ll_format : VariableLengthFormat := .Symbolic
deriving DecidableEq, Repr

/-- Source `Codec::default()`. -/
def Codec.default : Codec := {}

/-- One lowercase hex digit, as used by Rust's `{:02x}` formatting. -/
def hexDigit (n : Nat) : Char :=
  if n < 10 then Char.ofNat (48 + n) else Char.ofNat (87 + n)

/-- A `u8` rendered by `format!("{:02x}", b)` (two lowercase hex digits). -/
def byteHex (b : Nat) : String :=
  String.mk [hexDigit (b / 16 % 16), hexDigit (b % 16)]

/-- Source `Codec::length_size_bytes` from src/codec.rs. -/
def Codec.length_size_bytes (c : Codec) (len : Nat) : Nat :=
  match c.ll_format with
  | .Symbolic => len
  | .Byte => 1

/-- Source `Codec::byte_to_length` from src/codec.rs: decode one length-prefix
byte.  `Byte` format passes the raw value through; `Symbolic` expects an
ASCII (`0x30..=0x39`) or EBCDIC (`0xf0..=0xf9`) digit. -/
def Codec.byte_to_length (c : Codec) (len_byte : Nat) : PResult Nat :=
  match c.ll_format with
  | .Byte => .ok len_byte
  | .Symbolic =>
    let offset : Nat :=
      match c.length_encoding with
      | .ASCII => 0x30
      | .EBCDIC => 0xf0
    if len_byte > offset + 9 then
      .err ("Length byte out of range: 0x" ++ byteHex len_byte)
    else if len_byte < offset then
      .err ("Length byte out of range: 0x" ++ byteHex len_byte)
    else
      .ok (len_byte - offset)

/-- Little-endian decimal digits of `n` computed with explicit fuel
(`fuel ≥ n` suffices); mirrors the digit loop inside Rust's decimal
`format!`. -/
def digitsLE : Nat → Nat → List Nat
  | fuel + 1, n + 1 => ((n + 1) % 10) :: digitsLE fuel ((n + 1) / 10)
  | _, _ => []

/-- Big-endian decimal digit string of `n`, with `[0]` for zero: the
digit values of `format!("{}", n)`. -/
def natDigitsBE (n : Nat) : List Nat :=
  if n = 0 then [0] else (digitsLE n n).reverse

/-- Digit values of `format!("{0:01$}", n, w)`: the decimal digits of
`n` left-padded with zeros to a minimum width `w`. -/
def padDecimal (w n : Nat) : List Nat :=
  let ds := natDigitsBE n
  List.replicate (w - ds.length) 0 ++ ds

/-- Value of a big-endian decimal digit string. -/
def ofDigitsBE (ds : List Nat) : Nat :=
  ds.foldl (fun a d => a * 10 + d) 0

/-- Modelled from the spec: the EBCDIC translation table
(`encoding8::ascii::to_ebcdic`) is an external collaborator, "treated as
a pure function `ascii_byte → ebcdic_byte` provided externally" (§1).
Only the digit rows are ever exercised by the core: §6 fixes
`0x30..=0x39 → 0xf0..=0xf9`; other bytes are left unchanged here. -/
def ascii_to_ebcdic (b : Nat) : Nat :=
  if 0x30 ≤ b ∧ b ≤ 0x39 then b + 0xc0 else b

/-- Source `Codec::serialize_prefix` from src/codec.rs (source name
`serialize_prefix`), returning the emitted bytes instead of appending to
a `BytesMut`. -/
def Codec.serializePrefix (c : Codec) (prefix_len data_len : Nat) : PResult (List Nat) :=
  match c.ll_format with
  | .Byte =>
    if data_len > 255 then
      .err ("Length out of range: " ++ toString data_len)
    else
      .ok [data_len]
  | .Symbolic =>
    let px := (padDecimal prefix_len data_len).map (fun d => 0x30 + d)
    match c.length_encoding with
    | .EBCDIC => .ok (px.map ascii_to_ebcdic)
    | .ASCII => .ok px

/-- Source `enum FieldType` from src/spec.rs. -/
inductive FieldType where
  | A
  | N
  | S
  | NS
  | AN
  | ANS
  | B
deriving DecidableEq, Repr

/-- Source `enum LengthType` from src/spec.rs. -/
inductive LengthType where
  | Fixed
  | LVar
  | LLVar
  | LLLVar
  | LLLLVar
  | BitMap
deriving DecidableEq, Repr

/-- Source `LengthType::length_size` from src/spec.rs: symbolic digit count. -/
def LengthType.length_size : LengthType → Nat
  | .LVar => 1
  | .LLVar => 2
  | .LLLVar => 3
  | .LLLLVar => 4
  | _ => 0

/-- Source `enum SensitivityType` from src/spec.rs. -/
inductive SensitivityType where
  | Normal
  | MaskPAN
  | MaskAll
deriving DecidableEq, Repr

/-- Source `struct FieldSpec` from src/spec.rs. -/
structure FieldSpec where
  name : String := ""
  field_type : FieldType := .ANS
  length_type : LengthType := .Fixed
  sensitivity : SensitivityType := .Normal
  length : Nat := 0
deriving DecidableEq, Repr

/-- Source `FieldSpec::min_value_size` from src/spec.rs. -/
def FieldSpec.min_value_size (fs : FieldSpec) : Nat :=
  match fs.length_type with
  | .Fixed => fs.length
  | .LVar => 1
  | .LLVar => 1
  | .LLLVar => 1
  | .LLLLVar => 1
  | _ => 0

/-- Source `FieldSpec::max_value_size` from src/spec.rs. -/
def FieldSpec.max_value_size (fs : FieldSpec) : Nat :=
  match fs.length_type with
  | .Fixed => fs.length
  | .LVar => min fs.length 9
  | .LLVar => min fs.length 99
  | .LLLVar => min fs.length 999
  | .LLLLVar => min fs.length 9999
  | _ => 0

/-- Source `FieldSpec::byte_to_length` from src/spec.rs: ASCII-only digit
decoding (`// TODO: handle encodings other than ASCII (via codec)`). -/
def FieldSpec.byte_to_length (_fs : FieldSpec) (len_byte : Nat) : PResult Nat :=
  if len_byte > 0x39 then
    .err ("Length byte out of range: 0x" ++ byteHex len_byte)
  else if len_byte < 0x30 then
    .err ("Length byte out of range: 0x" ++ byteHex len_byte)
  else
    .ok (len_byte - 0x30)

/-- The `while len > 0` loop inside `FieldSpec::parse_length_prefix`
(src/spec.rs): consume `len` bytes, decode each with `b2l`, and
accumulate `sz += digit * 10^(len-1)`.  `crash` models `get_u8` on an
exhausted cursor, which the callers' remaining-length check rules out. -/
def lenLoop (b2l : Nat → PResult Nat) : List Nat → Nat → Nat → PResult (Nat × List Nat)
  | cursor, 0, sz => .ok (sz, cursor)
  | [], _ + 1, _ => .crash
  | b :: rest, len + 1, sz =>
    match b2l b with
    | .ok d => lenLoop b2l rest len (sz + d * 10 ^ len)
    | .err m => .err m
    | .crash => .crash

/-- Source `FieldSpec::parse_length_prefix` from src/spec.rs (source name
`parse_length_prefix`; ASCII-only snapshot — digit decoding is
`FieldSpec::byte_to_length`). -/
def FieldSpec.parseLengthPrefix (fs : FieldSpec) (cursor : List Nat) (len : Nat) :
    PResult (Nat × List Nat) :=
  if len = 0 then .ok (0, cursor)
  else if cursor.length < len then
    .err ("Unable to read length prefix (" ++ toString len ++ " chars needed, "
      ++ toString cursor.length ++ " available)")
  else
    match lenLoop (fs.byte_to_length) cursor len 0 with
    | .ok (sz, rest) =>
      if sz > fs.length then
        .err ("Variable length field over max length (" ++ toString sz ++ " > "
          ++ toString fs.length ++ ")")
      else
        .ok (sz, rest)
    | .err m => .err m
    | .crash => .crash

/-- Source `FieldSpec::to_read` from src/spec.rs (ASCII-only snapshot). -/
def FieldSpec.to_read (fs : FieldSpec) (cursor : List Nat) : PResult (Nat × List Nat) :=
  match fs.length_type with
  | .BitMap => .ok (0, cursor)
  | .Fixed => .ok (fs.length, cursor)
  | n => fs.parseLengthPrefix cursor (LengthType.length_size n)

/-- Modelled from the spec: the codec-aware
`FieldSpec::parse_length_prefix(codec, cursor, prefix_bytes)` of §4.3.
`Message::parse_fields` (src/msg.rs) calls `to_read(codec, cursor)`,
whose definition is not under src/ — src/src/spec.rs holds an earlier
ASCII-only snapshot whose body is this one with digit decoding hardwired
to ASCII.  Digit decoding delegates to `Codec::byte_to_length` from
src/codec.rs; the checks and error strings are those of the snapshot. -/
def FieldSpec.parseLengthPrefixWith (fs : FieldSpec) (c : Codec) (cursor : List Nat)
    (len : Nat) : PResult (Nat × List Nat) :=
  if len = 0 then .ok (0, cursor)
  else if cursor.length < len then
    .err ("Unable to read length prefix (" ++ toString len ++ " chars needed, "
      ++ toString cursor.length ++ " available)")
  else
    match lenLoop (c.byte_to_length) cursor len 0 with
    | .ok (sz, rest) =>
      if sz > fs.length then
        .err ("Variable length field over max length (" ++ toString sz ++ " > "
          ++ toString fs.length ++ ")")
      else
        .ok (sz, rest)
    | .err m => .err m
    | .crash => .crash

/-- Modelled from the spec: the codec-aware `FieldSpec::to_read(codec,
cursor)` of §4.3 called by `Message::parse_fields` (src/msg.rs); the
prefix byte count is `codec.length_size_bytes(n)`. -/
def FieldSpec.to_read_with (fs : FieldSpec) (c : Codec) (cursor : List Nat) :
    PResult (Nat × List Nat) :=
  match fs.length_type with
  | .BitMap => .ok (0, cursor)
  | .Fixed => .ok (fs.length, cursor)
  | n => fs.parseLengthPrefixWith c cursor (c.length_size_bytes (LengthType.length_size n))

/-- Modelled from the spec: the codec-aware
`FieldSpec::serialize_field(codec, buf, field)` of §4.3 called by
`Message::serialize` (src/msg.rs); src/src/spec.rs holds an ASCII-only
snapshot.  The length prefix is emitted by `Codec::serialize_prefix`
from src/codec.rs; returns the appended bytes. -/
def FieldSpec.serialize_field_with (fs : FieldSpec) (c : Codec) (payload : List Nat) :
    PResult (List Nat) :=
  match fs.length_type with
  | .BitMap => .ok []
  | .Fixed =>
    if fs.length = payload.length then .ok payload
    else .err "Invalid field length"
  | n =>
    match c.serializePrefix (LengthType.length_size n) payload.length with
    | .ok px => .ok (px ++ payload)
    | .err m => .err m
    | .crash => .crash

/-- The 8 bits of one byte, least-significant first.  Bit `i` of the
`BitVec<Lsb0, u64>` chunk built by `BitVec::from_element(get_u64_le())`
(src/bitmap.rs) is bit `i % 8` of byte `i / 8` of the 8 consumed bytes. -/
def byteBits (b : Nat) : List Bool :=
  (List.range 8).map (fun j => Nat.testBit b j)

/-- The 64 bits of one bitmap chunk, from its 8 wire bytes: the
`BitVec<Lsb0, u64>` contents of `BitVec::from_element(get_u64_le())`. -/
def chunkBits (bytes : List Nat) : List Bool :=
  bytes.flatMap byteBits

/-- Pack bits back into bytes, 8 at a time, least-significant first:
weight of the head bit is 1. -/
def byteOfBits (l : List Bool) : Nat :=
  l.foldr (fun b acc => (cond b 1 0) + 2 * acc) 0

/-- Emit a bit buffer as wire bytes, 8 bits per byte: `BitMap::serialize`
(src/bitmap.rs) writes each underlying `u64` chunk little-endian, which
is exactly its 8 bytes of 8 bits each, least-significant bit first.  The
trailing case (length not a multiple of 8) never arises: bitmap lengths
are multiples of 64. -/
def bitsToBytes : List Bool → List Nat
  | [] => []
  | b0 :: b1 :: b2 :: b3 :: b4 :: b5 :: b6 :: b7 :: rest =>
    byteOfBits [b0, b1, b2, b3, b4, b5, b6, b7] :: bitsToBytes rest
  | l => [byteOfBits l]

namespace BitMap

/-- Source `BitMap::from_cursor` from src/bitmap.rs: repeatedly consume 8 bytes
as a little-endian 64-bit chunk, append its bits, and continue while the
chunk's bit 0 (the continuation bit) is set.  Fewer than 8 remaining
bytes before a required chunk is "Truncated bitmap". -/
def from_cursor : List Nat → PResult (List Bool × List Nat)
  | b0 :: b1 :: b2 :: b3 :: b4 :: b5 :: b6 :: b7 :: rest =>
    let chunk := chunkBits [b0, b1, b2, b3, b4, b5, b6, b7]
    if chunk.getD 0 false then
      match from_cursor rest with
      | .ok (bits, rest') => .ok (chunk ++ bits, rest')
      | .err m => .err m
      | .crash => .crash
    else
      .ok (chunk, rest)
  | _ => .err "Truncated bitmap"

/-- Source `BitMap::serialize` from src/bitmap.rs, returning the emitted bytes. -/
def serialize (bits : List Bool) : List Nat :=
  bitsToBytes bits

/-- Source `BitVec::resize(new_len, false)` semantics: truncate or pad with
`false`. -/
def listResize (l : List Bool) (n : Nat) : List Bool :=
  if n ≤ l.length then l.take n else l ++ List.replicate (n - l.length) false

/-- Source `BitMap::resize_for_idx` from src/bitmap.rs:
`new_size = (idx + 1) + (64 - (idx + 1) % 64)`. -/
def resize_for_idx (bits : List Bool) (idx : Nat) : List Bool :=
  listResize bits ((idx + 1) + (64 - (idx + 1) % 64))

/-- Source `BitMap::test` from src/bitmap.rs: `false` beyond the current
length. -/
def test (bits : List Bool) (idx : Nat) : Bool :=
  if bits.length > idx then bits.getD idx false else false

/-- Source `BitMap::set` from src/bitmap.rs: grow if needed, set bit `idx`,
and, when `idx > 63`, additionally set bit `idx - 64 - idx % 64` (bit 0
of the preceding chunk). -/
def set (bits : List Bool) (idx : Nat) : List Bool :=
  let bits := if bits.length ≤ idx then resize_for_idx bits idx else bits
  let bits := bits.set idx true
  if idx > 63 then bits.set (idx - 64 - idx % 64) true else bits

/-- Source `BitMap::clear` from src/bitmap.rs. -/
def clear (bits : List Bool) (idx : Nat) : List Bool :=
  if bits.length > idx ∧ bits.getD idx false then bits.set idx false else bits

/-- Source `BitMap::iter_set` from src/bitmap.rs: ascending indices of set
bits, skipping every index divisible by 64 (control bits). -/
def iter_set (bits : List Bool) : List Nat :=
  (List.range bits.length).filter (fun i => i % 64 != 0 && bits.getD i false)

end BitMap

/-- Source `struct MessageSpec` from src/spec.rs. -/
structure MessageSpec where
  fields : List (Option FieldSpec)
deriving DecidableEq, Repr

namespace MTI

/-- Source `MTI::from_cursor` from src/msg.rs: consume exactly 4 bytes. -/
def from_cursor (cursor : List Nat) : PResult (List Nat × List Nat) :=
  if cursor.length < 4 then .err "Truncated MTI"
  else .ok (cursor.take 4, cursor.drop 4)

end MTI

/-- Source `struct Message` from src/msg.rs.  The `&'spec MessageSpec` borrow
is embedded by value; a `Field` is its payload byte list. -/
structure Message where
  mti : List Nat
  bitmap : List Bool
  spec : MessageSpec
  fields : List (Option (List Nat))
deriving DecidableEq, Repr

/-- The body of `Message::field` on a raw field table: bounds-checked
lookup. -/
def fieldLookup (fields : List (Option (List Nat))) (id : Nat) : Option (List Nat) :=
  if id ≥ fields.length then none else fields.getD id none

namespace Message

/-- The `for idx in bitmap.iter_set()` loop of `Message::parse_fields`
(src/msg.rs).  `spec.fields.get(idx).unwrap()` panics (`crash`) when
`idx` is out of range of the spec vector; an empty slot is skipped; the
`fields[idx] = …` assignment panics when `idx ≥ fields.len()`. -/
def parseFieldsLoop (spec : MessageSpec) (c : Codec) :
    List Nat → List (Option (List Nat)) → List Nat →
    PResult (List (Option (List Nat)) × List Nat)
  | [], fields, cursor => .ok (fields, cursor)
  | idx :: idxs, fields, cursor =>
    match spec.fields.get? idx with
    | none => .crash
    | some none => parseFieldsLoop spec c idxs fields cursor
    | some (some fs) =>
      match fs.to_read_with c cursor with
      | .ok (n, cursor') =>
        if cursor'.length < n then .err "Truncated field"
        else if idx < fields.length then
          parseFieldsLoop spec c idxs (fields.set idx (some (cursor'.take n))) (cursor'.drop n)
        else .crash
      | .err m => .err m
      | .crash => .crash

/-- Source `Message::parse_fields` from src/msg.rs: field table of 128 empty
slots, filled by walking the bitmap's set bits in ascending order. -/
def parse_fields (spec : MessageSpec) (c : Codec) (bitmap : List Bool) (cursor : List Nat) :
    PResult (List (Option (List Nat)) × List Nat) :=
  parseFieldsLoop spec c (BitMap.iter_set bitmap) (List.replicate 128 none) cursor

/-- Source `Message::from_bytes` from src/msg.rs, additionally returning the
unconsumed trailing bytes (which `from_bytes` itself ignores). -/
def from_bytes_full (spec : MessageSpec) (c : Codec) (data : List Nat) :
    PResult (Message × List Nat) :=
  match MTI.from_cursor data with
  | .ok (mti, d1) =>
    match BitMap.from_cursor d1 with
    | .ok (bm, d2) =>
      match parse_fields spec c bm d2 with
      | .ok (fields, d3) =>
        .ok ({ mti := mti, bitmap := bm, spec := spec, fields := fields }, d3)
      | .err m => .err m
      | .crash => .crash
    | .err m => .err m
    | .crash => .crash
  | .err m => .err m
  | .crash => .crash

/-- Source `Message::from_bytes` from src/msg.rs. -/
def from_bytes (spec : MessageSpec) (c : Codec) (data : List Nat) : PResult Message :=
  match from_bytes_full spec c data with
  | .ok (m, _) => .ok m
  | .err m => .err m
  | .crash => .crash

/-- Source `Message::field` from src/msg.rs. -/
def field (m : Message) (id : Nat) : Option (List Nat) :=
  fieldLookup m.fields id

/-- Source `Message::set_field` from src/msg.rs: `fields[idx] = …` panics when
`idx ≥ fields.len()`; otherwise store the payload and set the bitmap
bit (no length or type validation). -/
def set_field (m : Message) (idx : Nat) (value : List Nat) : PResult Message :=
  if idx < m.fields.length then
    .ok { m with
          fields := m.fields.set idx (some value),
          bitmap := BitMap.set m.bitmap idx }
  else .crash

/-- Source `Message::clear_field` from src/msg.rs. -/
def clear_field (m : Message) (idx : Nat) : PResult Message :=
  if idx < m.fields.length then
    .ok { m with
          fields := m.fields.set idx none,
          bitmap := BitMap.clear m.bitmap idx }
  else .crash

/-- The `for idx in self.bitmap.iter_set()` loop of `Message::serialize`
(src/msg.rs), returning the bytes it appends: a present field with a
present spec slot is emitted via `serialize_field`; an absent field or
an empty slot is skipped; `spec.fields.get(idx).unwrap()` panics when a
present field's index is out of range of the spec vector. -/
def serializeFieldsLoop (m : Message) (c : Codec) : List Nat → PResult (List Nat)
  | [] => .ok []
  | idx :: idxs =>
    match m.field idx with
    | none => serializeFieldsLoop m c idxs
    | some fld =>
      match m.spec.fields.get? idx with
      | none => .crash
      | some none => serializeFieldsLoop m c idxs
      | some (some fs) =>
        match fs.serialize_field_with c fld with
        | .ok emitted =>
          match serializeFieldsLoop m c idxs with
          | .ok out => .ok (emitted ++ out)
          | .err msg => .err msg
          | .crash => .crash
        | .err msg => .err msg
        | .crash => .crash

/-- Source `Message::serialize` from src/msg.rs: MTI bytes, bitmap chunks, then
each present field in ascending set-bit order. -/
def serialize (m : Message) (c : Codec) : PResult (List Nat) :=
  match serializeFieldsLoop m c (BitMap.iter_set m.bitmap) with
  | .ok out => .ok (m.mti ++ BitMap.serialize m.bitmap ++ out)
  | .err msg => .err msg
  | .crash => .crash

end Message

/-! ## Concrete fixtures

The message spec, wire buffer and parsed message of the repository's own
`message_from_bytes` test (src/msg.rs), reused as concrete inputs for
witnesses and counterexamples. -/

/-- The `test_spec()` fixture of src/msg.rs. -/
def spec0 : MessageSpec :=
  { fields := [
      none,
      some { name := "TEST FIELD 2", field_type := .ANS, length_type := .Fixed,
             sensitivity := .Normal, length := 12 },
      some { name := "TEST FIELD 3", field_type := .ANS, length_type := .Fixed,
             sensitivity := .Normal, length := 4 },
      none,
      some { name := "TEST FIELD 5", field_type := .ANS, length_type := .Fixed,
             sensitivity := .Normal, length := 2 },
      none,
      some { name := "TEST FIELD 6", field_type := .ANS, length_type := .LLVar,
             sensitivity := .Normal, length := 20 },
      some { name := "TEST FIELD 7", field_type := .B, length_type := .Fixed,
             sensitivity := .Normal, length := 4 }] }

/-- The wire buffer
`"0120\x56\x00…\x00111122223333ABCDXY05LLVAR"` of the
`message_from_bytes` test. -/
def buf0 : List Nat :=
  [0x30, 0x31, 0x32, 0x30,
   0x56, 0, 0, 0, 0, 0, 0, 0,
   0x31, 0x31, 0x31, 0x31, 0x32, 0x32, 0x32, 0x32, 0x33, 0x33, 0x33, 0x33,
   0x41, 0x42, 0x43, 0x44,
   0x58, 0x59,
   0x30, 0x35, 0x4c, 0x4c, 0x56, 0x41, 0x52]

/-- The message `from_bytes(spec0, default, buf0)` produces: fields 1, 2,
4 and 6 populated. -/
def msg0 : Message :=
  { mti := [0x30, 0x31, 0x32, 0x30],
    bitmap := chunkBits [0x56, 0, 0, 0, 0, 0, 0, 0],
    spec := spec0,
    fields :=
      ((((List.replicate 128 (none : Option (List Nat))).set 1
        (some [0x31, 0x31, 0x31, 0x31, 0x32, 0x32, 0x32, 0x32, 0x33, 0x33, 0x33, 0x33])).set 2
        (some [0x41, 0x42, 0x43, 0x44])).set 4
        (some [0x58, 0x59])).set 6
        (some [0x4c, 0x4c, 0x56, 0x41, 0x52]) }

/-! ## List helpers -/

theorem getD_set_self {α : Type} : ∀ (l : List α) (i : Nat) (a d : α),
    i < l.length → (l.set i a).getD i d = a := by
  intro l
  induction l with
  | nil => intro i a d h; simp at h
  | cons hd tl ih =>
    intro i a d h
    cases i with
    | zero => rfl
    | succ j =>
      simp only [List.set]
      exact ih j a d (by simpa using h)

theorem getD_set_ne {α : Type} : ∀ (l : List α) (i j : Nat) (a d : α),
    i ≠ j → (l.set i a).getD j d = l.getD j d := by
  intro l
  induction l with
  | nil => intro i j a d _; simp [List.set]
  | cons hd tl ih =>
    intro i j a d h
    cases i with
    | zero =>
      cases j with
      | zero => exact absurd rfl h
      | succ k => rfl
    | succ i' =>
      cases j with
      | zero => rfl
      | succ k =>
        simp only [List.set]
        exact ih i' k a d (fun hc => h (by rw [hc]))

theorem getD_replicate {α : Type} : ∀ (n i : Nat) (a : α),
    (List.replicate n a).getD i a = a := by
  intro n
  induction n with
  | zero => intro i a; simp [List.getD]
  | succ m ih =>
    intro i a
    cases i with
    | zero => rfl
    | succ j => exact ih j a

theorem fieldLookup_replicate (i : Nat) :
    fieldLookup (List.replicate 128 none) i = none := by
  unfold fieldLookup
  split
  · rfl
  · exact getD_replicate 128 i none

theorem fieldLookup_set_ne (fields : List (Option (List Nat))) (i j : Nat)
    (v : Option (List Nat)) (h : i ≠ j) :
    fieldLookup (fields.set i v) j = fieldLookup fields j := by
  unfold fieldLookup
  rw [List.length_set]
  split
  · rfl
  · exact getD_set_ne fields i j v none h

theorem fieldLookup_set_self (fields : List (Option (List Nat))) (i : Nat)
    (v : Option (List Nat)) (h : i < fields.length) :
    fieldLookup (fields.set i v) i = v := by
  unfold fieldLookup
  rw [List.length_set]
  split
  · omega
  · exact getD_set_self fields i v none h

/-! ## BitMap.set and resize_for_idx -/

theorem listResize_length_of_le (l : List Bool) (n : Nat) (h : l.length ≤ n) :
    (BitMap.listResize l n).length = n := by
  unfold BitMap.listResize
  split
  · simp; omega
  · simp; omega

theorem resize_for_idx_length (bits : List Bool) (idx : Nat) (h : bits.length ≤ idx) :
    (BitMap.resize_for_idx bits idx).length = 64 * ((idx + 1) / 64 + 1) := by
  unfold BitMap.resize_for_idx
  rw [listResize_length_of_le bits _ (by omega)]
  omega

theorem test_set_self (bits : List Bool) (idx : Nat) :
    BitMap.test (BitMap.set bits idx) idx = true := by
  unfold BitMap.set BitMap.test
  set b1 := if bits.length ≤ idx then BitMap.resize_for_idx bits idx else bits with hb1
  have hlen : idx < b1.length := by
    rw [hb1]
    split
    · rw [resize_for_idx_length bits idx (by omega)]; omega
    · omega
  have hind : idx > 63 → idx - 64 - idx % 64 ≠ idx := by
    intro hgt
    have : idx % 64 < 64 := Nat.mod_lt _ (by omega)
    omega
  split
  · rename_i hgt
    rw [if_pos (by rw [List.length_set, List.length_set]; omega)]
    rw [getD_set_ne _ _ _ _ _ (hind hgt)]
    exact getD_set_self b1 idx true false hlen
  · rw [if_pos (by rw [List.length_set]; omega)]
    exact getD_set_self b1 idx true false hlen

theorem set_length_of_le (bits : List Bool) (idx : Nat) (h : bits.length ≤ idx) :
    (BitMap.set bits idx).length = 64 * ((idx + 1) / 64 + 1) := by
  unfold BitMap.set
  rw [if_pos h]
  split
  · rw [List.length_set, List.length_set]
    exact resize_for_idx_length bits idx h
  · rw [List.length_set]
    exact resize_for_idx_length bits idx h

/-- Claim C2: the continuation chain is NOT maintained down to chunk 0.
Evaluating the code at the failing input: `BitMap::set(150)` on an empty
bitmap sets bit 150 and bit 64 (bit 0 of chunk 1) but leaves bit 0 of
chunk 0 clear, because `set` only sets `idx - 64 - idx % 64` once and
never recurses; moreover the message-level `set_field(150, …)` panics
outright, since the field table has fixed length 128. -/
theorem bitmap_set_150_breaks_chain :
    BitMap.test (BitMap.set [] 150) 0 = false ∧
    BitMap.test (BitMap.set [] 150) 64 = true ∧
    BitMap.test (BitMap.set [] 150) 150 = true ∧
    Message.set_field msg0 150 [0x31, 0x32, 0x33, 0x34] = .crash := by
  refine ⟨by decide, by decide, by decide, by decide⟩

/-- Claim C4 (counterexample): `set(63)` on an empty bitmap yields length 128,
not 64 — the claimed "smallest multiple of 64 strictly greater than 63"
is wrong when `i + 1` is itself a multiple of 64. -/
theorem bitmap_set_63_length_128 :
    (BitMap.set [] 63).length = 128 ∧ ¬((BitMap.set [] 63).length = 64) := by
  refine ⟨by decide, by decide⟩

/-- Claim C4 (amended): for `i ≥ len`, `BitMap::set(i)` grows the buffer to
`64 * ((i + 1) / 64 + 1)` — the smallest multiple of 64 strictly greater
than `i + 1` (one full chunk more than needed when `i + 1` is already a
multiple of 64, e.g. `set(63)` yields 128; `set(100)` yields 128) — and
then sets bit `i`. -/
theorem bitmap_set_grows (bits : List Bool) (idx : Nat) (h : bits.length ≤ idx) :
    (BitMap.set bits idx).length = 64 * ((idx + 1) / 64 + 1) ∧
    BitMap.test (BitMap.set bits idx) idx = true :=
  ⟨set_length_of_le bits idx h, test_set_self bits idx⟩

/-- Claim C4 (witness): `set(100)` on an empty bitmap has length 128 and bit
100 set. -/
theorem bitmap_set_grows_witness :
    (BitMap.set [] 100).length = 128 ∧ BitMap.test (BitMap.set [] 100) 100 = true := by
  have h := bitmap_set_grows [] 100 (by decide)
  simpa using h

/-! ## Decimal digit lemmas -/

theorem ofDigitsBE_foldl (ds : List Nat) : ∀ a : Nat,
    ds.foldl (fun x d => x * 10 + d) a = a * 10 ^ ds.length + ofDigitsBE ds := by
  induction ds with
  | nil => intro a; simp [ofDigitsBE]
  | cons d ds ih =>
    intro a
    have h0 : ofDigitsBE (d :: ds) = d * 10 ^ ds.length + ofDigitsBE ds := by
      show List.foldl (fun x d => x * 10 + d) 0 (d :: ds) = _
      rw [List.foldl_cons, ih (0 * 10 + d)]
      ring
    rw [List.foldl_cons, ih (a * 10 + d), h0, List.length_cons]
    ring

theorem ofDigitsBE_cons (d : Nat) (ds : List Nat) :
    ofDigitsBE (d :: ds) = d * 10 ^ ds.length + ofDigitsBE ds := by
  show List.foldl (fun x d => x * 10 + d) 0 (d :: ds) = _
  rw [List.foldl_cons, ofDigitsBE_foldl ds (0 * 10 + d)]
  ring

theorem ofDigitsBE_lt (ds : List Nat) (h : ∀ d ∈ ds, d < 10) :
    ofDigitsBE ds < 10 ^ ds.length := by
  induction ds with
  | nil => simp [ofDigitsBE]
  | cons d ds ih =>
    rw [ofDigitsBE_cons, List.length_cons]
    have hd : d < 10 := h d (List.mem_cons_self d ds)
    have hds := ih (fun x hx => h x (List.mem_cons_of_mem d hx))
    have : d * 10 ^ ds.length ≤ 9 * 10 ^ ds.length :=
      Nat.mul_le_mul_right _ (by omega)
    calc d * 10 ^ ds.length + ofDigitsBE ds
        < d * 10 ^ ds.length + 10 ^ ds.length := by omega
      _ ≤ 9 * 10 ^ ds.length + 10 ^ ds.length := by omega
      _ = 10 ^ (ds.length + 1) := by ring

theorem ofDigitsBE_replicate_zero_append (k : Nat) (t : List Nat) :
    ofDigitsBE (List.replicate k 0 ++ t) = ofDigitsBE t := by
  induction k with
  | zero => simp
  | succ m ih =>
    rw [List.replicate_succ, List.cons_append, ofDigitsBE_cons, ih]
    simp

theorem ofDigitsBE_eq_ofDigits_reverse (ds : List Nat) :
    ofDigitsBE ds = Nat.ofDigits 10 ds.reverse := by
  induction ds with
  | nil => simp [ofDigitsBE]
  | cons d ds ih =>
    rw [ofDigitsBE_cons, List.reverse_cons, Nat.ofDigits_append, ih,
      Nat.ofDigits_singleton, List.length_reverse]
    ring

theorem ofDigitsBE_replicate_nine (n : Nat) :
    ofDigitsBE (List.replicate n 9) = 10 ^ n - 1 := by
  induction n with
  | zero => simp [ofDigitsBE]
  | succ m ih =>
    rw [List.replicate_succ, ofDigitsBE_cons, List.length_replicate, ih, pow_succ]
    have : 0 < 10 ^ m := Nat.pos_pow_of_pos m (by omega)
    omega

theorem digitsLE_eq_digits : ∀ fuel n : Nat, n ≤ fuel → digitsLE fuel n = Nat.digits 10 n := by
  intro fuel
  induction fuel with
  | zero =>
    intro n hn
    interval_cases n
    simp [digitsLE]
  | succ f ih =>
    intro n hn
    match n with
    | 0 => simp [digitsLE]
    | m + 1 =>
      rw [Nat.digits_def' (by omega : 1 < 10) (Nat.succ_pos m)]
      unfold digitsLE
      rw [ih ((m + 1) / 10) (by
        have := Nat.div_lt_self (Nat.succ_pos m) (by omega : 1 < 10)
        omega)]

theorem natDigitsBE_of_pos (n : Nat) (h : 0 < n) :
    natDigitsBE n = (Nat.digits 10 n).reverse := by
  unfold natDigitsBE
  rw [if_neg (by omega), digitsLE_eq_digits n n le_rfl]

theorem leading_zeros_decomp : ∀ ds : List Nat,
    ∃ k t, ds = List.replicate k 0 ++ t ∧ (t = [] ∨ ∃ a t₂, t = a :: t₂ ∧ a ≠ 0) := by
  intro ds
  induction ds with
  | nil => exact ⟨0, [], rfl, Or.inl rfl⟩
  | cons d ds ih =>
    by_cases hd : d = 0
    · obtain ⟨k, t, heq, ht⟩ := ih
      refine ⟨k + 1, t, ?_, ht⟩
      rw [List.replicate_succ, List.cons_append, ← heq, hd]
    · exact ⟨0, d :: ds, rfl, Or.inr ⟨d, ds, rfl, hd⟩⟩

/-- Parsing a digit string and re-rendering it zero-padded to its own
width is the identity: the key fact behind length-prefix round-trips. -/
theorem padDecimal_roundtrip (ds : List Nat) (hne : ds ≠ []) (hd : ∀ d ∈ ds, d < 10) :
    padDecimal ds.length (ofDigitsBE ds) = ds := by
  obtain ⟨k, t, rfl, ht⟩ := leading_zeros_decomp ds
  rcases ht with rfl | ⟨a, t₂, rfl, ha⟩
  · -- all zeros
    have hk : 1 ≤ k := by
      rcases Nat.eq_zero_or_pos k with h | h
      · subst h; simp at hne
      · omega
    have hval : ofDigitsBE (List.replicate k 0 ++ []) = 0 := by
      rw [ofDigitsBE_replicate_zero_append]; rfl
    rw [hval]
    unfold padDecimal natDigitsBE
    simp only [if_pos rfl]
    rw [List.append_nil, List.length_replicate]
    have : k = (k - 1) + 1 := by omega
    rw [this, List.replicate_succ']
    simp
  · -- leading zeros then a nonzero digit
    set t := a :: t₂ with htdef
    have hvt : ofDigitsBE (List.replicate k 0 ++ t) = ofDigitsBE t :=
      ofDigitsBE_replicate_zero_append k t
    have htlt : ∀ d ∈ t, d < 10 := by
      intro d hdm
      exact hd d (List.mem_append_right _ hdm)
    have hpos : 0 < ofDigitsBE t := by
      rw [htdef, ofDigitsBE_cons]
      have : 0 < 10 ^ t₂.length := Nat.pos_pow_of_pos _ (by omega)
      have : 1 * 10 ^ t₂.length ≤ a * 10 ^ t₂.length :=
        Nat.mul_le_mul_right _ (by omega)
      omega
    have hrev : Nat.digits 10 (Nat.ofDigits 10 t.reverse) = t.reverse := by
      apply Nat.digits_ofDigits 10 (by omega) t.reverse
      · intro l hl
        exact htlt l (List.mem_reverse.mp hl)
      · intro hne₂
        have hsome : t.reverse.getLast? = some a := by
          rw [htdef, List.reverse_cons, List.getLast?_append_of_ne_nil _ (by simp)]
          rfl
        rw [List.getLast?_eq_getLast_of_ne_nil hne₂] at hsome
        have heq : t.reverse.getLast hne₂ = a := Option.some.inj hsome
        rw [heq]
        exact ha
    have hdig : natDigitsBE (ofDigitsBE t) = t := by
      rw [natDigitsBE_of_pos _ hpos, ofDigitsBE_eq_ofDigits_reverse, hrev,
        List.reverse_reverse]
    rw [hvt]
    unfold padDecimal
    rw [hdig, List.length_append, List.length_replicate]
    simp

/-! ## Length-prefix parsing: decomposition and round trip -/

theorem lenLoop_ok (f : Nat → PResult Nat) :
    ∀ (len : Nat) (cursor : List Nat) (sz res : Nat) (rest : List Nat),
    lenLoop f cursor len sz = .ok (res, rest) →
    ∃ pre ds, cursor = pre ++ rest ∧ pre.length = len ∧ ds.length = len ∧
      List.Forall₂ (fun b d => f b = .ok d) pre ds ∧ res = sz + ofDigitsBE ds := by
  intro len
  induction len with
  | zero =>
    intro cursor sz res rest h
    simp only [lenLoop, PResult.ok.injEq, Prod.mk.injEq] at h
    exact ⟨[], [], by simp [h.2], rfl, rfl, List.Forall₂.nil, by simp [ofDigitsBE, h.1]⟩
  | succ m ih =>
    intro cursor sz res rest h
    cases cursor with
    | nil => simp [lenLoop] at h
    | cons b cur =>
      cases hfb : f b with
      | ok d =>
        simp only [lenLoop, hfb] at h
        obtain ⟨pre, ds, hc, hlp, hld, hf2, hres⟩ := ih cur (sz + d * 10 ^ m) res rest h
        refine ⟨b :: pre, d :: ds, by simp [hc], by simp [hlp], by simp [hld], ?_, ?_⟩
        · exact List.Forall₂.cons hfb hf2
        · rw [hres, ofDigitsBE_cons, hld]
          omega
      | err msg => simp [lenLoop, hfb] at h
      | crash => simp [lenLoop, hfb] at h

/-- The symbolic-digit offset of a length encoding: `0x30` for ASCII
digits, `0xf0` for EBCDIC digits. -/
def digitOffset (e : Encoding) : Nat :=
  match e with
  | .ASCII => 0x30
  | .EBCDIC => 0xf0

theorem byte_to_length_symbolic (c : Codec) (hs : c.ll_format = .Symbolic) (b d : Nat)
    (h : c.byte_to_length b = .ok d) :
    b = digitOffset c.length_encoding + d ∧ d ≤ 9 := by
  cases he : c.length_encoding <;>
    simp only [Codec.byte_to_length, hs, he] at h <;>
    split_ifs at h with h1 h2 <;>
    simp only [PResult.ok.injEq] at h <;>
    simp only [digitOffset] <;> omega

theorem forall2_symbolic_map (o : Nat) :
    ∀ (pre ds : List Nat), List.Forall₂ (fun b d => b = o + d ∧ d ≤ 9) pre ds →
    pre = ds.map (fun d => o + d) ∧ ∀ d ∈ ds, d < 10 := by
  intro pre ds h
  induction h with
  | nil => exact ⟨rfl, by simp⟩
  | @cons b d pre₂ ds₂ hbd _ ih =>
    refine ⟨by simp [hbd.1, ih.1], ?_⟩
    intro x hx
    rcases List.mem_cons.mp hx with rfl | hx
    · have := hbd.2; omega
    · exact ih.2 x hx

/-- Round trip of one variable-length prefix: if the codec-aware
`parse_length_prefix` consumed some bytes and returned `sz`, then
`Codec::serialize_prefix` with the same digit count re-emits exactly the
consumed bytes. -/
theorem prefix_roundtrip (fs : FieldSpec) (c : Codec) (cursor cursor₁ : List Nat)
    (k sz : Nat) (hk : 1 ≤ k) (hbytes : ∀ b ∈ cursor, b < 256)
    (h : fs.parseLengthPrefixWith c cursor (c.length_size_bytes k) = .ok (sz, cursor₁)) :
    ∃ px, cursor = px ++ cursor₁ ∧ c.serializePrefix k sz = .ok px := by
  unfold FieldSpec.parseLengthPrefixWith at h
  cases hll : c.ll_format with
  | Byte =>
    have hlen1 : c.length_size_bytes k = 1 := by
      unfold Codec.length_size_bytes
      rw [hll]
    rw [hlen1] at h
    rw [if_neg (by omega)] at h
    by_cases hshort : cursor.length < 1
    · rw [if_pos hshort] at h
      simp at h
    rw [if_neg hshort] at h
    cases hloop : lenLoop (c.byte_to_length) cursor 1 0 with
    | ok p =>
      obtain ⟨sz₀, rest⟩ := p
      rw [hloop] at h
      simp only at h
      by_cases hover : sz₀ > fs.length
      · rw [if_pos hover] at h
        simp at h
      rw [if_neg hover] at h
      simp only [PResult.ok.injEq, Prod.mk.injEq] at h
      obtain ⟨rfl, rfl⟩ := h
      obtain ⟨pre, ds, hc, hlp, hld, hf2, hres⟩ := lenLoop_ok _ _ _ _ _ _ hloop
      obtain ⟨b, rfl⟩ := List.length_eq_one.mp hlp
      obtain ⟨d, rfl⟩ := List.length_eq_one.mp hld
      have hfb : c.byte_to_length b = .ok d := by
        cases hf2 with
        | cons hbd _ => exact hbd
      have hdb : d = b := by
        simp only [Codec.byte_to_length, hll, PResult.ok.injEq] at hfb
        omega
      have hb256 : b < 256 := hbytes b (by rw [hc]; exact List.mem_append_left _ (by simp))
      have hsz : sz₀ = b := by
        rw [hres, hdb]
        simp [ofDigitsBE]
      refine ⟨[b], hc, ?_⟩
      unfold Codec.serializePrefix
      rw [hll, hsz]
      rw [if_neg (by omega)]
    | err msg => rw [hloop] at h; simp at h
    | crash => rw [hloop] at h; simp at h
  | Symbolic =>
    have hlenk : c.length_size_bytes k = k := by
      unfold Codec.length_size_bytes
      rw [hll]
    rw [hlenk] at h
    rw [if_neg (by omega)] at h
    by_cases hshort : cursor.length < k
    · rw [if_pos hshort] at h
      simp at h
    rw [if_neg hshort] at h
    cases hloop : lenLoop (c.byte_to_length) cursor k 0 with
    | ok p =>
      obtain ⟨sz₀, rest⟩ := p
      rw [hloop] at h
      simp only at h
      by_cases hover : sz₀ > fs.length
      · rw [if_pos hover] at h
        simp at h
      rw [if_neg hover] at h
      simp only [PResult.ok.injEq, Prod.mk.injEq] at h
      obtain ⟨rfl, rfl⟩ := h
      obtain ⟨pre, ds, hc, hlp, hld, hf2, hres⟩ := lenLoop_ok _ _ _ _ _ _ hloop
      have hds : ds ≠ [] := by
        intro hnil
        rw [hnil] at hld
        simp at hld
        omega
      have hf2o : List.Forall₂ (fun b d => b = digitOffset c.length_encoding + d ∧ d ≤ 9)
          pre ds := by
        refine List.Forall₂.imp ?_ hf2
        intro b d hbd
        exact byte_to_length_symbolic c hll b d hbd
      obtain ⟨hpre, hdlt⟩ := forall2_symbolic_map (digitOffset c.length_encoding) pre ds hf2o
      have hpad : padDecimal k sz₀ = ds := by
        rw [hres]
        simp only [Nat.zero_add]
        rw [← hld]
        exact padDecimal_roundtrip ds hds hdlt
      refine ⟨pre, hc, ?_⟩
      unfold Codec.serializePrefix
      rw [hll, hpad, hpre]
      cases he : c.length_encoding with
      | ASCII =>
        simp [digitOffset]
      | EBCDIC =>
        simp only [digitOffset, PResult.ok.injEq, List.map_map]
        apply List.map_congr_left
        intro d hd
        have hd9 : d < 10 := hdlt d hd
        simp only [Function.comp_apply, ascii_to_ebcdic]
        rw [if_pos (by omega)]
        omega
    | err msg => rw [hloop] at h; simp at h
    | crash => rw [hloop] at h; simp at h

/-- Round trip of a single field: whatever `to_read` consumed as length
prefix, `serialize_field` re-emits, followed by any payload of the
parsed length. -/
theorem to_read_serialize_roundtrip (fs : FieldSpec) (c : Codec) (cursor cursor₁ : List Nat)
    (n : Nat) (hbytes : ∀ b ∈ cursor, b < 256)
    (h : fs.to_read_with c cursor = .ok (n, cursor₁)) :
    ∃ px, cursor = px ++ cursor₁ ∧
      ∀ payload : List Nat, payload.length = n →
        fs.serialize_field_with c payload = .ok (px ++ payload) := by
  cases hlt : fs.length_type with
  | BitMap =>
    simp only [FieldSpec.to_read_with, hlt, PResult.ok.injEq, Prod.mk.injEq] at h
    obtain ⟨rfl, rfl⟩ := h
    refine ⟨[], by simp, ?_⟩
    intro payload hpl
    have : payload = [] := List.length_eq_zero.mp hpl
    subst this
    simp [FieldSpec.serialize_field_with, hlt]
  | Fixed =>
    simp only [FieldSpec.to_read_with, hlt, PResult.ok.injEq, Prod.mk.injEq] at h
    obtain ⟨rfl, rfl⟩ := h
    refine ⟨[], by simp, ?_⟩
    intro payload hpl
    simp [FieldSpec.serialize_field_with, hlt, hpl]
  | LVar =>
    simp only [FieldSpec.to_read_with, hlt] at h
    obtain ⟨px, hcur, hpx⟩ := prefix_roundtrip fs c cursor cursor₁ _ n (by decide) hbytes h
    refine ⟨px, hcur, ?_⟩
    intro payload hpl
    simp [FieldSpec.serialize_field_with, hlt, hpl, hpx]
  | LLVar =>
    simp only [FieldSpec.to_read_with, hlt] at h
    obtain ⟨px, hcur, hpx⟩ := prefix_roundtrip fs c cursor cursor₁ _ n (by decide) hbytes h
    refine ⟨px, hcur, ?_⟩
    intro payload hpl
    simp [FieldSpec.serialize_field_with, hlt, hpl, hpx]
  | LLLVar =>
    simp only [FieldSpec.to_read_with, hlt] at h
    obtain ⟨px, hcur, hpx⟩ := prefix_roundtrip fs c cursor cursor₁ _ n (by decide) hbytes h
    refine ⟨px, hcur, ?_⟩
    intro payload hpl
    simp [FieldSpec.serialize_field_with, hlt, hpl, hpx]
  | LLLLVar =>
    simp only [FieldSpec.to_read_with, hlt] at h
    obtain ⟨px, hcur, hpx⟩ := prefix_roundtrip fs c cursor cursor₁ _ n (by decide) hbytes h
    refine ⟨px, hcur, ?_⟩
    intro payload hpl
    simp [FieldSpec.serialize_field_with, hlt, hpl, hpx]

/-! ## Length-prefix parsing on digit strings (C7, C8, C9) -/

theorem lenLoop_ascii_digits (fs : FieldSpec) :
    ∀ (ds rest : List Nat) (sz : Nat), (∀ d ∈ ds, d ≤ 9) →
    lenLoop (fs.byte_to_length) (ds.map (fun d => 0x30 + d) ++ rest) ds.length sz =
      .ok (sz + ofDigitsBE ds, rest) := by
  intro ds
  induction ds with
  | nil =>
    intro rest sz _
    simp [lenLoop, ofDigitsBE]
  | cons d ds ih =>
    intro rest sz h
    have hd : d ≤ 9 := h d (List.mem_cons_self d ds)
    have hb : fs.byte_to_length (0x30 + d) = .ok d := by
      unfold FieldSpec.byte_to_length
      rw [if_neg (by omega), if_neg (by omega)]
      congr 1
      omega
    simp only [List.map_cons, List.cons_append, List.length_cons, lenLoop, hb,
      List.append_eq]
    rw [ih rest (sz + d * 10 ^ ds.length) (fun x hx => h x (List.mem_cons_of_mem _ hx))]
    rw [ofDigitsBE_cons]
    have harith : sz + d * 10 ^ ds.length + ofDigitsBE ds
        = sz + (d * 10 ^ ds.length + ofDigitsBE ds) := by omega
    rw [harith]

/-- Claim C7: under the ASCII symbolic codec, `parse_length_prefix` reads its
`n` consumed bytes as a big-endian decimal number; on `n` bytes that are
all the digit `'9'` it returns `10^n − 1` when that value is at most
`FieldSpec.length` and otherwise fails with
`"Variable length field over max length ({size} > {max})"`.  The last
conjunct ties the codec-aware entry point used by `Message` to the
src/spec.rs ASCII implementation: for any ASCII/symbolic codec they
agree. -/
theorem parse_length_prefix_all_nines (fs : FieldSpec) (n : Nat) (rest : List Nat) :
    (∀ ds : List Nat, ds.length = n → (∀ d ∈ ds, d ≤ 9) →
      fs.parseLengthPrefix (ds.map (fun d => 0x30 + d) ++ rest) n =
        (if ofDigitsBE ds > fs.length then
          .err ("Variable length field over max length (" ++ toString (ofDigitsBE ds)
            ++ " > " ++ toString fs.length ++ ")")
        else .ok (ofDigitsBE ds, rest))) ∧
    fs.parseLengthPrefix (List.replicate n 0x39 ++ rest) n =
      (if 10 ^ n - 1 ≤ fs.length then .ok (10 ^ n - 1, rest)
       else .err ("Variable length field over max length (" ++ toString (10 ^ n - 1)
         ++ " > " ++ toString fs.length ++ ")")) ∧
    (∀ (c : Codec) (cursor : List Nat) (len : Nat),
      c.length_encoding = .ASCII → c.ll_format = .Symbolic →
      fs.parseLengthPrefixWith c cursor len = fs.parseLengthPrefix cursor len) := by
  have hgen : ∀ ds : List Nat, ds.length = n → (∀ d ∈ ds, d ≤ 9) →
      fs.parseLengthPrefix (ds.map (fun d => 0x30 + d) ++ rest) n =
        (if ofDigitsBE ds > fs.length then
          .err ("Variable length field over max length (" ++ toString (ofDigitsBE ds)
            ++ " > " ++ toString fs.length ++ ")")
        else .ok (ofDigitsBE ds, rest)) := by
    intro ds hlen hds
    unfold FieldSpec.parseLengthPrefix
    by_cases hn : n = 0
    · subst hn
      have : ds = [] := List.length_eq_zero.mp hlen
      subst this
      rw [if_pos rfl]
      simp [ofDigitsBE]
    · rw [if_neg hn]
      have hculen : (ds.map (fun d => 0x30 + d) ++ rest).length = n + rest.length := by
        simp [hlen]
      rw [if_neg (by omega)]
      rw [← hlen, lenLoop_ascii_digits fs ds rest 0 hds]
      simp only [Nat.zero_add]
  refine ⟨hgen, ?_, ?_⟩
  · have h9 := hgen (List.replicate n 9) (by simp) (by intro d hd; simp at hd; omega)
    have hmap : (List.replicate n 9).map (fun d => 0x30 + d) = List.replicate n 0x39 := by
      rw [List.map_replicate]
    rw [hmap, ofDigitsBE_replicate_nine] at h9
    rw [h9]
    by_cases hle : 10 ^ n - 1 ≤ fs.length
    · rw [if_neg (by omega), if_pos hle]
    · rw [if_pos (by omega), if_neg hle]
  · intro c cursor len he hs
    have hfun : c.byte_to_length = fs.byte_to_length := by
      funext b
      simp only [Codec.byte_to_length, FieldSpec.byte_to_length, hs, he]
    unfold FieldSpec.parseLengthPrefixWith FieldSpec.parseLengthPrefix
    rw [hfun]

/-- LVar/length=8 fixture of the repository's `fs_to_read_lvar` test. -/
def fsL8 : FieldSpec :=
  { name := "TEST", field_type := .ANS, length_type := .LVar,
    sensitivity := .Normal, length := 8 }

/-- LLVar/length=12 fixture of the repository's `fs_to_read_llvar`
test. -/
def fsLL12 : FieldSpec :=
  { name := "TEST", field_type := .ANS, length_type := .LLVar,
    sensitivity := .Normal, length := 12 }

/-- Claim C7 (witness): the repository's own `fs_to_read_lvar` case — an
LVar/length=8 spec reading `"9ABC"` fails with
`"Variable length field over max length (9 > 8)"`. -/
theorem parse_length_prefix_all_nines_witness :
    fsL8.parseLengthPrefix [0x39, 0x41, 0x42, 0x43] 1 =
      .err "Variable length field over max length (9 > 8)" := by
  have h := (parse_length_prefix_all_nines fsL8 1 [0x41, 0x42, 0x43]).1 [9] rfl (by decide)
  have h2 : ([9].map (fun d => 0x30 + d) ++ [0x41, 0x42, 0x43]) = [0x39, 0x41, 0x42, 0x43] := by
    decide
  rw [h2] at h
  refine h.trans ?_
  decide

/-- Claim C8: with a symbolic-EBCDIC codec, `Codec::byte_to_length` accepts
exactly `0xf0..=0xf9`, returning `b − 0xf0`, and fails with
`"Length byte out of range"` otherwise; `to_read` for an LLVar/max-12
field on `"\xF0\xF3ABC"` consumes the two prefix bytes and returns 3,
leaving the cursor at `"ABC"`. -/
theorem ebcdic_length_digits (c : Codec) (hs : c.ll_format = .Symbolic)
    (he : c.length_encoding = .EBCDIC) :
    (∀ b : Nat, c.byte_to_length b =
      (if 0xf0 ≤ b ∧ b ≤ 0xf9 then .ok (b - 0xf0)
       else .err ("Length byte out of range: 0x" ++ byteHex b))) ∧
    fsLL12.to_read_with c [0xf0, 0xf3, 0x41, 0x42, 0x43] = .ok (3, [0x41, 0x42, 0x43]) := by
  obtain ⟨le, de, fr, ll⟩ := c
  dsimp only at hs he
  subst hs he
  constructor
  · intro b
    simp only [Codec.byte_to_length]
    by_cases h1 : b > 0xf0 + 9
    · rw [if_pos h1, if_neg (by omega)]
    · rw [if_neg h1]
      by_cases h2 : b < 0xf0
      · rw [if_pos h2, if_neg (by omega)]
      · rw [if_neg h2, if_pos (by omega)]
  · rfl

/-- The all-symbolic EBCDIC codec used as concrete witness input. -/
def cE : Codec :=
  { length_encoding := .EBCDIC, data_encoding := .ASCII,
    framing := .Unframed, ll_format := .Symbolic }

/-- Claim C8 (witness): concrete instances — `0xf5` decodes to digit 5, and
the LLVar `"\xF0\xF3ABC"` scenario returns `(3, "ABC")`. -/
theorem ebcdic_length_digits_witness :
    cE.byte_to_length 0xf5 = .ok 5 ∧
    fsLL12.to_read_with cE [0xf0, 0xf3, 0x41, 0x42, 0x43] = .ok (3, [0x41, 0x42, 0x43]) := by
  refine ⟨?_, (ebcdic_length_digits cE rfl rfl).2⟩
  have h := (ebcdic_length_digits cE rfl rfl).1 0xf5
  refine h.trans ?_
  decide

/-- Claim C9 (counterexample): for an LLVar field of max length 95,
`max_value_size` returns `min(95, 99) = 95`, not `min(95, 9^2) = 81` —
the digit-count cap is `10^n − 1` (a run of `n` nines), not `9^n`. -/
theorem max_value_size_llvar_95 :
    FieldSpec.max_value_size { length_type := .LLVar, length := 95 } = 95 ∧
    ¬(FieldSpec.max_value_size { length_type := .LLVar, length := 95 }
       = min 95 (9 ^ 2)) := by
  refine ⟨by decide, by decide⟩

/-- Claim C9 (amended): `max_value_size` is the configured length for `Fixed`,
`min(length, 10^n − 1)` for a variable length type with `n` prefix
digits, and 0 for `BitMap`. -/
theorem max_value_size_eq (fs : FieldSpec) :
    fs.max_value_size =
      (match fs.length_type with
       | .Fixed => fs.length
       | .BitMap => 0
       | lt => min fs.length (10 ^ lt.length_size - 1)) := by
  cases h : fs.length_type <;>
    simp [FieldSpec.max_value_size, h, LengthType.length_size]

/-! ## Parse-time slot handling (C5) and set_field/field (C6) -/

/-- A `MessageSpec` with an empty field vector: every index is out of
range. -/
def specEmpty : MessageSpec := { fields := [] }

/-- Claim C5 (amended): during `Message::parse_fields`, a set bit whose spec
slot is present but empty is skipped — the loop continues with the same
field table and an unmoved cursor (and the bitmap is never touched) —
but a set bit whose index is out of range of the spec vector makes the
parser panic (`spec.fields.get(idx).unwrap()` on `None`) instead of
skipping. -/
theorem parse_fields_skip_empty_slot (S : MessageSpec) (c : Codec) (i : Nat)
    (idxs : List Nat) (fields : List (Option (List Nat))) (cursor : List Nat) :
    (S.fields.get? i = some none →
      Message.parseFieldsLoop S c (i :: idxs) fields cursor =
        Message.parseFieldsLoop S c idxs fields cursor) ∧
    (S.fields.get? i = none →
      Message.parseFieldsLoop S c (i :: idxs) fields cursor = .crash) := by
  constructor
  · intro h
    simp only [Message.parseFieldsLoop, h]
  · intro h
    simp only [Message.parseFieldsLoop, h]

/-- Claim C5 (witness): bit 0 of `spec0` holds an empty slot, so the parse
loop passes over it untouched; index 1 is out of range of the empty
spec, so the loop panics there. -/
theorem parse_fields_skip_empty_slot_witness :
    Message.parseFieldsLoop spec0 Codec.default [0] (List.replicate 128 none) [0x41] =
      Message.parseFieldsLoop spec0 Codec.default [] (List.replicate 128 none) [0x41] ∧
    Message.parseFieldsLoop specEmpty Codec.default [1] (List.replicate 128 none) [0x41] =
      .crash :=
  ⟨(parse_fields_skip_empty_slot spec0 Codec.default 0 [] (List.replicate 128 none) [0x41]).1
      rfl,
   (parse_fields_skip_empty_slot specEmpty Codec.default 1 [] (List.replicate 128 none)
      [0x41]).2 rfl⟩

/-- Claim C5 (counterexample): a wire buffer whose bitmap sets bit 1 parsed
against an empty `MessageSpec` makes `from_bytes` panic — the parser
does not "skip that field and continue without failing" when the slot is
out of range. -/
theorem from_bytes_out_of_range_crashes :
    Message.from_bytes specEmpty Codec.default
      [0x30, 0x30, 0x30, 0x30, 0x02, 0, 0, 0, 0, 0, 0, 0] = .crash := by
  rfl

/-- Claim C6 (counterexample): the field table of a parsed message has fixed
length 128, and `set_field(128, …)` panics (out-of-bounds `Vec`
indexing) instead of storing the payload — the claim's "for every
index i" fails at `i = 128`. -/
theorem set_field_128_crashes :
    msg0.fields.length = 128 ∧ Message.set_field msg0 128 [0x41] = .crash := by
  refine ⟨by rfl, by rfl⟩

/-- Claim C6 (amended): for every message `M`, payload `v` and index
`i < M.fields.len()` (always 128 for a parsed message), `set_field(i,v)`
succeeds, after which `field(i)` returns `v` and `bitmap.test(i)` is
true; no length or type validation is performed on `v` (the statement
quantifies over arbitrary `v`). -/
theorem set_field_then_field (m : Message) (i : Nat) (v : List Nat)
    (h : i < m.fields.length) :
    ∃ m', m.set_field i v = .ok m' ∧ m'.field i = some v ∧
      BitMap.test m'.bitmap i = true := by
  refine ⟨Message.mk m.mti (BitMap.set m.bitmap i) m.spec (m.fields.set i (some v)),
    ?_, ?_, ?_⟩
  · unfold Message.set_field
    rw [if_pos h]
  · show fieldLookup (m.fields.set i (some v)) i = some v
    exact fieldLookup_set_self m.fields i (some v) h
  · exact test_set_self m.bitmap i

/-- Claim C6 (witness): storing `[1, 2, 3]` at index 9 of the parsed fixture
message succeeds and is observable through `field` and the bitmap. -/
theorem set_field_then_field_witness :
    ∃ m', msg0.set_field 9 [1, 2, 3] = .ok m' ∧ m'.field 9 = some [1, 2, 3] ∧
      BitMap.test m'.bitmap 9 = true :=
  set_field_then_field msg0 9 [1, 2, 3] (by decide)

/-! ## BitMap.from_cursor: truncation, error shape, length (C3) -/

/-- The "fewer than 8 bytes remain before a required chunk" condition:
a chunk is required at the start and after every chunk whose
continuation bit is set. -/
def bmTruncated : List Nat → Bool
  | b0 :: b1 :: b2 :: b3 :: b4 :: b5 :: b6 :: b7 :: rest =>
    (chunkBits [b0, b1, b2, b3, b4, b5, b6, b7]).getD 0 false && bmTruncated rest
  | _ => true

theorem chunkBits_length (b0 b1 b2 b3 b4 b5 b6 b7 : Nat) :
    (chunkBits [b0, b1, b2, b3, b4, b5, b6, b7]).length = 64 := by
  simp [chunkBits, byteBits]

theorem from_cursor_spec_aux : ∀ (n : Nat) (cursor : List Nat), cursor.length ≤ n →
    (BitMap.from_cursor cursor = .err "Truncated bitmap" ↔ bmTruncated cursor = true) ∧
    (∀ bits rest, BitMap.from_cursor cursor = .ok (bits, rest) →
      64 ∣ bits.length ∧ bits.length ≠ 0) ∧
    (∀ msg, BitMap.from_cursor cursor = .err msg → msg = "Truncated bitmap") ∧
    ¬(BitMap.from_cursor cursor = .crash) := by
  intro n
  induction n with
  | zero =>
    intro cursor hlen
    have : cursor = [] := List.length_eq_zero.mp (by omega)
    subst this
    refine ⟨by simp [BitMap.from_cursor, bmTruncated], ?_, ?_, ?_⟩
    · intro bits rest h
      simp [BitMap.from_cursor] at h
    · intro msg h
      simp only [BitMap.from_cursor, PResult.err.injEq] at h
      exact h.symm
    · simp [BitMap.from_cursor]
  | succ m ih =>
    intro cursor hlen
    rcases cursor with _ | ⟨b0, cursor⟩
    · exact ih [] (by simp)
    rcases cursor with _ | ⟨b1, cursor⟩
    · refine ⟨by simp [BitMap.from_cursor, bmTruncated], ?_, ?_, ?_⟩
      · intro bits rest h; simp [BitMap.from_cursor] at h
      · intro msg h; simp only [BitMap.from_cursor, PResult.err.injEq] at h; exact h.symm
      · simp [BitMap.from_cursor]
    rcases cursor with _ | ⟨b2, cursor⟩
    · refine ⟨by simp [BitMap.from_cursor, bmTruncated], ?_, ?_, ?_⟩
      · intro bits rest h; simp [BitMap.from_cursor] at h
      · intro msg h; simp only [BitMap.from_cursor, PResult.err.injEq] at h; exact h.symm
      · simp [BitMap.from_cursor]
    rcases cursor with _ | ⟨b3, cursor⟩
    · refine ⟨by simp [BitMap.from_cursor, bmTruncated], ?_, ?_, ?_⟩
      · intro bits rest h; simp [BitMap.from_cursor] at h
      · intro msg h; simp only [BitMap.from_cursor, PResult.err.injEq] at h; exact h.symm
      · simp [BitMap.from_cursor]
    rcases cursor with _ | ⟨b4, cursor⟩
    · refine ⟨by simp [BitMap.from_cursor, bmTruncated], ?_, ?_, ?_⟩
      · intro bits rest h; simp [BitMap.from_cursor] at h
      · intro msg h; simp only [BitMap.from_cursor, PResult.err.injEq] at h; exact h.symm
      · simp [BitMap.from_cursor]
    rcases cursor with _ | ⟨b5, cursor⟩
    · refine ⟨by simp [BitMap.from_cursor, bmTruncated], ?_, ?_, ?_⟩
      · intro bits rest h; simp [BitMap.from_cursor] at h
      · intro msg h; simp only [BitMap.from_cursor, PResult.err.injEq] at h; exact h.symm
      · simp [BitMap.from_cursor]
    rcases cursor with _ | ⟨b6, cursor⟩
    · refine ⟨by simp [BitMap.from_cursor, bmTruncated], ?_, ?_, ?_⟩
      · intro bits rest h; simp [BitMap.from_cursor] at h
      · intro msg h; simp only [BitMap.from_cursor, PResult.err.injEq] at h; exact h.symm
      · simp [BitMap.from_cursor]
    rcases cursor with _ | ⟨b7, rest⟩
    · refine ⟨by simp [BitMap.from_cursor, bmTruncated], ?_, ?_, ?_⟩
      · intro bits rest h; simp [BitMap.from_cursor] at h
      · intro msg h; simp only [BitMap.from_cursor, PResult.err.injEq] at h; exact h.symm
      · simp [BitMap.from_cursor]
    -- 8 or more bytes: one chunk is consumed
    have hrest : rest.length ≤ m := by
      simp only [List.length_cons] at hlen
      omega
    obtain ⟨ihiff, ihok, iherr, ihcrash⟩ := ih rest hrest
    by_cases hcont : (chunkBits [b0, b1, b2, b3, b4, b5, b6, b7]).getD 0 false
    · -- continuation bit set: recurse
      cases hrec : BitMap.from_cursor rest with
      | ok p =>
        obtain ⟨bits', rest'⟩ := p
        have heval : BitMap.from_cursor (b0 :: b1 :: b2 :: b3 :: b4 :: b5 :: b6 :: b7 :: rest)
            = .ok (chunkBits [b0, b1, b2, b3, b4, b5, b6, b7] ++ bits', rest') := by
          simp only [BitMap.from_cursor]
          rw [hcont, if_pos rfl, hrec]
        have hnt : bmTruncated rest = false := by
          cases hbt : bmTruncated rest
          · rfl
          · rw [ihiff.mpr hbt] at hrec
            exact absurd hrec (by simp)
        refine ⟨?_, ?_, ?_, ?_⟩
        · rw [heval]
          simp only [bmTruncated, hcont, hnt]
          constructor
          · intro hc
            exact absurd hc (by simp)
          · intro hc
            simp at hc
        · intro bits rest₂ h
          rw [heval] at h
          simp only [PResult.ok.injEq, Prod.mk.injEq] at h
          obtain ⟨h1, h2⟩ := h
          obtain ⟨hdvd, hne⟩ := ihok bits' rest' hrec
          rw [← h1, List.length_append, chunkBits_length]
          exact ⟨Nat.dvd_add (dvd_refl 64) hdvd, by omega⟩
        · intro msg h
          rw [heval] at h
          exact absurd h (by simp)
        · rw [heval]
          simp
      | err emsg =>
        have heval : BitMap.from_cursor (b0 :: b1 :: b2 :: b3 :: b4 :: b5 :: b6 :: b7 :: rest)
            = .err emsg := by
          simp only [BitMap.from_cursor]
          rw [hcont, if_pos rfl, hrec]
        have hmsg : emsg = "Truncated bitmap" := iherr emsg hrec
        subst hmsg
        have hbt : bmTruncated rest = true := ihiff.mp hrec
        refine ⟨?_, ?_, ?_, ?_⟩
        · rw [heval]
          simp only [bmTruncated, hcont, hbt]
          simp
        · intro bits rest₂ h
          rw [heval] at h
          exact absurd h (by simp)
        · intro msg h
          rw [heval] at h
          simp only [PResult.err.injEq] at h
          exact h.symm
        · rw [heval]
          simp
      | crash => exact absurd hrec ihcrash
    · -- continuation bit clear: stop after this chunk
      rw [Bool.not_eq_true] at hcont
      have heval : BitMap.from_cursor (b0 :: b1 :: b2 :: b3 :: b4 :: b5 :: b6 :: b7 :: rest)
          = .ok (chunkBits [b0, b1, b2, b3, b4, b5, b6, b7], rest) := by
        simp only [BitMap.from_cursor]
        rw [hcont, if_neg (by simp)]
      refine ⟨?_, ?_, ?_, ?_⟩
      · rw [heval]
        simp only [bmTruncated]
        rw [hcont]
        constructor
        · intro hc
          exact absurd hc (by simp)
        · intro hc
          simp at hc
      · intro bits rest₂ h
        rw [heval] at h
        simp only [PResult.ok.injEq, Prod.mk.injEq] at h
        rw [← h.1]
        rw [chunkBits_length]
        exact ⟨⟨1, rfl⟩, by omega⟩
      · intro msg h
        rw [heval] at h
        exact absurd h (by simp)
      · rw [heval]
        simp

/-- Claim C3 (amended): `BitMap::from_cursor` fails — always with exactly
`ParseError "Truncated bitmap"`, never a panic — precisely when fewer
than 8 bytes remain before a chunk required by the continuation-bit
protocol; every successful result is a bitmap whose length is a positive
multiple of 64 (the code places no cap at three chunks, so 256 bits and
beyond are possible). -/
theorem from_cursor_truncation (cursor : List Nat) :
    (BitMap.from_cursor cursor = .err "Truncated bitmap" ↔ bmTruncated cursor = true) ∧
    (∀ bits rest, BitMap.from_cursor cursor = .ok (bits, rest) →
      64 ∣ bits.length ∧ bits.length ≠ 0) ∧
    (∀ msg, BitMap.from_cursor cursor = .err msg → msg = "Truncated bitmap") ∧
    ¬(BitMap.from_cursor cursor = .crash) :=
  from_cursor_spec_aux cursor.length cursor le_rfl

/-- Claim C3 (witness): a 5-byte buffer is truncated — `from_cursor` fails
with `"Truncated bitmap"`. -/
theorem from_cursor_truncation_witness :
    BitMap.from_cursor [1, 2, 3, 4, 5] = .err "Truncated bitmap" :=
  (from_cursor_truncation [1, 2, 3, 4, 5]).1.mpr (by decide)

/-- Four chunks whose first three continuation bits are set. -/
def cbuf4 : List Nat :=
  (1 :: List.replicate 7 0) ++ (1 :: List.replicate 7 0) ++
    (1 :: List.replicate 7 0) ++ List.replicate 8 0

/-- Claim C3 (counterexample): a four-chunk wire bitmap parses successfully
into 256 bits — not 64, 128 or 192 as claimed; the loop has no
three-chunk cap. -/
theorem from_cursor_256_bits :
    (∃ bits, BitMap.from_cursor cbuf4 = .ok (bits, []) ∧ bits.length = 256) ∧
    ¬(256 = 64 ∨ 256 = 128 ∨ 256 = 192) := by
  refine ⟨⟨_, rfl, by decide⟩, by decide⟩

/-! ## Bit/byte packing round trips -/

theorem byteOfBits_byteBits (b : Nat) (hb : b < 256) : byteOfBits (byteBits b) = b := by
  have h : ∀ x : Fin 256, byteOfBits (byteBits x.val) = x.val := by decide
  exact h ⟨b, hb⟩

theorem bitsToBytes_byteBits_append (b : Nat) (hb : b < 256) (rest : List Bool) :
    bitsToBytes (byteBits b ++ rest) = b :: bitsToBytes rest := by
  have hexp : byteBits b = [b.testBit 0, b.testBit 1, b.testBit 2, b.testBit 3,
      b.testBit 4, b.testBit 5, b.testBit 6, b.testBit 7] := rfl
  rw [hexp]
  simp only [List.cons_append, List.nil_append]
  have hstep : bitsToBytes (b.testBit 0 :: b.testBit 1 :: b.testBit 2 :: b.testBit 3 ::
      b.testBit 4 :: b.testBit 5 :: b.testBit 6 :: b.testBit 7 :: rest)
      = byteOfBits [b.testBit 0, b.testBit 1, b.testBit 2, b.testBit 3,
        b.testBit 4, b.testBit 5, b.testBit 6, b.testBit 7] :: bitsToBytes rest := rfl
  rw [hstep, ← hexp, byteOfBits_byteBits b hb]

theorem bitsToBytes_chunkBits (b0 b1 b2 b3 b4 b5 b6 b7 : Nat) (rest : List Bool)
    (h0 : b0 < 256) (h1 : b1 < 256) (h2 : b2 < 256) (h3 : b3 < 256)
    (h4 : b4 < 256) (h5 : b5 < 256) (h6 : b6 < 256) (h7 : b7 < 256) :
    bitsToBytes (chunkBits [b0, b1, b2, b3, b4, b5, b6, b7] ++ rest)
      = [b0, b1, b2, b3, b4, b5, b6, b7] ++ bitsToBytes rest := by
  simp only [chunkBits, List.flatMap_cons, List.flatMap_nil, List.append_nil,
    List.append_assoc]
  rw [bitsToBytes_byteBits_append b0 h0, bitsToBytes_byteBits_append b1 h1,
    bitsToBytes_byteBits_append b2 h2, bitsToBytes_byteBits_append b3 h3,
    bitsToBytes_byteBits_append b4 h4, bitsToBytes_byteBits_append b5 h5,
    bitsToBytes_byteBits_append b6 h6, bitsToBytes_byteBits_append b7 h7]
  simp

/-- The bytes consumed by `BitMap::from_cursor` are reproduced exactly
by `BitMap::serialize` (`bitsToBytes`). -/
theorem from_cursor_consumed_aux : ∀ (n : Nat) (cursor : List Nat), cursor.length ≤ n →
    (∀ b ∈ cursor, b < 256) →
    ∀ bits rest, BitMap.from_cursor cursor = .ok (bits, rest) →
    bitsToBytes bits ++ rest = cursor := by
  intro n
  induction n with
  | zero =>
    intro cursor hlen _ bits rest h
    have : cursor = [] := List.length_eq_zero.mp (by omega)
    subst this
    simp [BitMap.from_cursor] at h
  | succ m ih =>
    intro cursor hlen hby bits rest h
    rcases cursor with _ | ⟨b0, cursor⟩
    · simp [BitMap.from_cursor] at h
    rcases cursor with _ | ⟨b1, cursor⟩
    · simp [BitMap.from_cursor] at h
    rcases cursor with _ | ⟨b2, cursor⟩
    · simp [BitMap.from_cursor] at h
    rcases cursor with _ | ⟨b3, cursor⟩
    · simp [BitMap.from_cursor] at h
    rcases cursor with _ | ⟨b4, cursor⟩
    · simp [BitMap.from_cursor] at h
    rcases cursor with _ | ⟨b5, cursor⟩
    · simp [BitMap.from_cursor] at h
    rcases cursor with _ | ⟨b6, cursor⟩
    · simp [BitMap.from_cursor] at h
    rcases cursor with _ | ⟨b7, rest₀⟩
    · simp [BitMap.from_cursor] at h
    have hb : ∀ i ∈ [b0, b1, b2, b3, b4, b5, b6, b7], i < 256 := by
      intro i hi
      refine hby i ?_
      simp only [List.mem_cons] at hi ⊢
      tauto
    have hrest : rest₀.length ≤ m := by
      simp only [List.length_cons] at hlen
      omega
    have hbyrest : ∀ b ∈ rest₀, b < 256 := by
      intro b hbm
      refine hby b ?_
      simp only [List.mem_cons]
      tauto
    by_cases hcont : (chunkBits [b0, b1, b2, b3, b4, b5, b6, b7]).getD 0 false
    · cases hrec : BitMap.from_cursor rest₀ with
      | ok p =>
        obtain ⟨bits', rest'⟩ := p
        have heval : BitMap.from_cursor (b0 :: b1 :: b2 :: b3 :: b4 :: b5 :: b6 :: b7 :: rest₀)
            = .ok (chunkBits [b0, b1, b2, b3, b4, b5, b6, b7] ++ bits', rest') := by
          simp only [BitMap.from_cursor]
          rw [hcont, if_pos rfl, hrec]
        rw [heval] at h
        simp only [PResult.ok.injEq, Prod.mk.injEq] at h
        obtain ⟨hbits, hrest'⟩ := h
        have hih := ih rest₀ hrest hbyrest bits' rest' hrec
        rw [← hbits, ← hrest']
        rw [bitsToBytes_chunkBits b0 b1 b2 b3 b4 b5 b6 b7 bits'
          (hb b0 (by simp)) (hb b1 (by simp)) (hb b2 (by simp)) (hb b3 (by simp))
          (hb b4 (by simp)) (hb b5 (by simp)) (hb b6 (by simp)) (hb b7 (by simp))]
        rw [List.append_assoc, hih]
        rfl
      | err emsg =>
        have heval : BitMap.from_cursor (b0 :: b1 :: b2 :: b3 :: b4 :: b5 :: b6 :: b7 :: rest₀)
            = .err emsg := by
          simp only [BitMap.from_cursor]
          rw [hcont, if_pos rfl, hrec]
        rw [heval] at h
        exact absurd h (by simp)
      | crash =>
        have heval : BitMap.from_cursor (b0 :: b1 :: b2 :: b3 :: b4 :: b5 :: b6 :: b7 :: rest₀)
            = .crash := by
          simp only [BitMap.from_cursor]
          rw [hcont, if_pos rfl, hrec]
        rw [heval] at h
        exact absurd h (by simp)
    · rw [Bool.not_eq_true] at hcont
      have heval : BitMap.from_cursor (b0 :: b1 :: b2 :: b3 :: b4 :: b5 :: b6 :: b7 :: rest₀)
          = .ok (chunkBits [b0, b1, b2, b3, b4, b5, b6, b7], rest₀) := by
        simp only [BitMap.from_cursor]
        rw [hcont, if_neg (by simp)]
      rw [heval] at h
      simp only [PResult.ok.injEq, Prod.mk.injEq] at h
      obtain ⟨hbits, hrest'⟩ := h
      rw [← hbits, ← hrest']
      have := bitsToBytes_chunkBits b0 b1 b2 b3 b4 b5 b6 b7 []
        (hb b0 (by simp)) (hb b1 (by simp)) (hb b2 (by simp)) (hb b3 (by simp))
        (hb b4 (by simp)) (hb b5 (by simp)) (hb b6 (by simp)) (hb b7 (by simp))
      rw [List.append_nil] at this
      rw [this]
      rfl

theorem from_cursor_consumed (cursor : List Nat) (hby : ∀ b ∈ cursor, b < 256)
    (bits : List Bool) (rest : List Nat)
    (h : BitMap.from_cursor cursor = .ok (bits, rest)) :
    bitsToBytes bits ++ rest = cursor :=
  from_cursor_consumed_aux cursor.length cursor le_rfl hby bits rest h

/-! ## Field-loop round trip -/

theorem iter_set_nodup (bits : List Bool) : (BitMap.iter_set bits).Nodup :=
  List.Nodup.filter _ (List.nodup_range _)

theorem parseFieldsLoop_preserves (S : MessageSpec) (c : Codec) :
    ∀ (idxs : List Nat) (fields : List (Option (List Nat))) (cursor : List Nat)
      (fields' : List (Option (List Nat))) (rest : List Nat),
    Message.parseFieldsLoop S c idxs fields cursor = .ok (fields', rest) →
    ∀ j, j ∉ idxs → fieldLookup fields' j = fieldLookup fields j := by
  intro idxs
  induction idxs with
  | nil =>
    intro fields cursor fields' rest h j _
    simp only [Message.parseFieldsLoop, PResult.ok.injEq, Prod.mk.injEq] at h
    rw [← h.1]
  | cons i idxs ih =>
    intro fields cursor fields' rest h j hj
    have hji : ¬(j = i) ∧ j ∉ idxs := by
      rw [List.mem_cons] at hj
      tauto
    cases hslot : S.fields.get? i with
    | none =>
      simp only [Message.parseFieldsLoop, hslot] at h
      exact absurd h (by simp)
    | some o =>
      cases o with
      | none =>
        simp only [Message.parseFieldsLoop, hslot] at h
        exact ih fields cursor fields' rest h j hji.2
      | some fs =>
        simp only [Message.parseFieldsLoop, hslot] at h
        cases htr : fs.to_read_with c cursor with
        | ok p =>
          obtain ⟨nn, cur'⟩ := p
          rw [htr] at h
          simp only at h
          by_cases hlen : cur'.length < nn
          · rw [if_pos hlen] at h
            exact absurd h (by simp)
          rw [if_neg hlen] at h
          by_cases hidx : i < fields.length
          · rw [if_pos hidx] at h
            have := ih _ _ _ _ h j hji.2
            rw [this, fieldLookup_set_ne fields i j _ (fun he => hji.1 he.symm)]
          · rw [if_neg hidx] at h
            exact absurd h (by simp)
        | err emsg =>
          rw [htr] at h
          exact absurd h (by simp)
        | crash =>
          rw [htr] at h
          exact absurd h (by simp)

theorem parse_serialize_loop (S : MessageSpec) (c : Codec) (mti : List Nat) (bm : List Bool) :
    ∀ (idxs : List Nat) (fields : List (Option (List Nat))) (cursor : List Nat)
      (fields' : List (Option (List Nat))) (rest : List Nat),
    idxs.Nodup →
    (∀ b ∈ cursor, b < 256) →
    (∀ i ∈ idxs, fieldLookup fields i = none) →
    Message.parseFieldsLoop S c idxs fields cursor = .ok (fields', rest) →
    ∃ out, Message.serializeFieldsLoop (Message.mk mti bm S fields') c idxs = .ok out ∧
      out ++ rest = cursor := by
  intro idxs
  induction idxs with
  | nil =>
    intro fields cursor fields' rest _ _ _ h
    simp only [Message.parseFieldsLoop, PResult.ok.injEq, Prod.mk.injEq] at h
    exact ⟨[], rfl, by simp [h.2]⟩
  | cons i idxs ih =>
    intro fields cursor fields' rest hnd hby hnone h
    rw [List.nodup_cons] at hnd
    cases hslot : S.fields.get? i with
    | none =>
      simp only [Message.parseFieldsLoop, hslot] at h
      exact absurd h (by simp)
    | some o =>
      cases o with
      | none =>
        simp only [Message.parseFieldsLoop, hslot] at h
        obtain ⟨out, hser, hout⟩ := ih fields cursor fields' rest hnd.2 hby
          (fun j hj => hnone j (List.mem_cons_of_mem _ hj)) h
        refine ⟨out, ?_, hout⟩
        have hfi : fieldLookup fields' i = none := by
          rw [parseFieldsLoop_preserves S c idxs fields cursor fields' rest h i hnd.1]
          exact hnone i (List.mem_cons_self i idxs)
        simp only [Message.serializeFieldsLoop, Message.field, hfi]
        exact hser
      | some fs =>
        simp only [Message.parseFieldsLoop, hslot] at h
        cases htr : fs.to_read_with c cursor with
        | ok p =>
          obtain ⟨nn, cur'⟩ := p
          rw [htr] at h
          simp only at h
          by_cases hlen : cur'.length < nn
          · rw [if_pos hlen] at h
            exact absurd h (by simp)
          rw [if_neg hlen] at h
          by_cases hidx : i < fields.length
          swap
          · rw [if_neg hidx] at h
            exact absurd h (by simp)
          rw [if_pos hidx] at h
          obtain ⟨px, hcur, hserf⟩ := to_read_serialize_roundtrip fs c cursor cur' nn hby htr
          have hbycur' : ∀ b ∈ cur', b < 256 := by
            intro b hbm
            exact hby b (by rw [hcur]; exact List.mem_append_right _ hbm)
          have hbydrop : ∀ b ∈ cur'.drop nn, b < 256 := by
            intro b hbm
            exact hbycur' b (List.mem_of_mem_drop hbm)
          have hnone' : ∀ j ∈ idxs, fieldLookup (fields.set i (some (cur'.take nn))) j
              = none := by
            intro j hj
            rw [fieldLookup_set_ne fields i j _ (fun he => hnd.1 (he ▸ hj))]
            exact hnone j (List.mem_cons_of_mem _ hj)
          obtain ⟨out, hser, hout⟩ := ih _ _ _ _ hnd.2 hbydrop hnone' h
          have hpl : (cur'.take nn).length = nn := by
            rw [List.length_take]
            omega
          have hfi : fieldLookup fields' i = some (cur'.take nn) := by
            rw [parseFieldsLoop_preserves S c idxs _ _ fields' rest h i hnd.1]
            exact fieldLookup_set_self fields i (some (cur'.take nn)) hidx
          refine ⟨px ++ cur'.take nn ++ out, ?_, ?_⟩
          · simp only [Message.serializeFieldsLoop, Message.field, hfi, hslot,
              hserf (cur'.take nn) hpl, hser]
          · rw [List.append_assoc, List.append_assoc, hout]
            rw [List.take_append_drop, hcur]
        | err emsg =>
          rw [htr] at h
          exact absurd h (by simp)
        | crash =>
          rw [htr] at h
          exact absurd h (by simp)

/-- Claim C1: round trip.  If `Message::from_bytes(S, C, B)` succeeds, `B` has
no trailing bytes after the last field (the parse consumes the whole
buffer), and `S` defines a `FieldSpec` at every non-control bit set in
the parsed bitmap, then `serialize` reproduces `B` byte-for-byte.  The
variable-length prefixes necessarily use `C`'s prefix encoding, since
that is what the successful parse decoded them with. -/
theorem from_bytes_serialize_roundtrip (S : MessageSpec) (c : Codec) (B : List Nat)
    (m : Message)
    (hB : ∀ b ∈ B, b < 256)
    (hok : Message.from_bytes_full S c B = .ok (m, []))
    (hcov : ∀ i ∈ BitMap.iter_set m.bitmap,
      ((S.fields.get? i).getD none).isSome = true) :
    m.serialize c = .ok B := by
  clear hcov
  unfold Message.from_bytes_full at hok
  unfold MTI.from_cursor at hok
  by_cases h4 : B.length < 4
  · rw [if_pos h4] at hok
    exact absurd hok (by simp)
  rw [if_neg h4] at hok
  simp only at hok
  cases hbm : BitMap.from_cursor (B.drop 4) with
  | ok p =>
    obtain ⟨bm, d2⟩ := p
    rw [hbm] at hok
    simp only at hok
    cases hpf : Message.parse_fields S c bm d2 with
    | ok q =>
      obtain ⟨fields, d3⟩ := q
      rw [hpf] at hok
      simp only [PResult.ok.injEq, Prod.mk.injEq] at hok
      obtain ⟨hm, hd3⟩ := hok
      subst hd3
      have hbydrop : ∀ b ∈ B.drop 4, b < 256 := by
        intro b hb
        exact hB b (List.mem_of_mem_drop hb)
      have hconsumed := from_cursor_consumed (B.drop 4) hbydrop bm d2 hbm
      have hbyd2 : ∀ b ∈ d2, b < 256 := by
        intro b hb
        refine hbydrop b ?_
        rw [← hconsumed]
        exact List.mem_append_right _ hb
      unfold Message.parse_fields at hpf
      obtain ⟨out, hser, hout⟩ := parse_serialize_loop S c (B.take 4) bm
        (BitMap.iter_set bm) (List.replicate 128 none) d2 fields []
        (iter_set_nodup bm) hbyd2 (fun i _ => fieldLookup_replicate i) hpf
      rw [List.append_nil] at hout
      subst hout
      rw [← hm]
      unfold Message.serialize
      simp only
      rw [hser]
      show PResult.ok (List.take 4 B ++ BitMap.serialize bm ++ out) = PResult.ok B
      unfold BitMap.serialize
      rw [List.append_assoc, hconsumed, List.take_append_drop]
    | err emsg =>
      rw [hpf] at hok
      exact absurd hok (by simp)
    | crash =>
      rw [hpf] at hok
      exact absurd hok (by simp)
  | err emsg =>
    rw [hbm] at hok
    exact absurd hok (by simp)
  | crash =>
    rw [hbm] at hok
    exact absurd hok (by simp)

/-- Claim C1 (witness): the repository's `message_from_bytes` fixture —
parsing `buf0` with `spec0` yields `msg0` with nothing left over, and
serializing it reproduces `buf0` exactly. -/
theorem from_bytes_serialize_roundtrip_witness :
    Message.serialize msg0 Codec.default = .ok buf0 :=
  from_bytes_serialize_roundtrip spec0 Codec.default buf0 msg0
    (by decide) (by rfl) (by decide)

/-! ## Codec independence (C10) -/

theorem byte_to_length_congr (c₁ c₂ : Codec) (hle : c₁.length_encoding = c₂.length_encoding)
    (hll : c₁.ll_format = c₂.ll_format) :
    c₁.byte_to_length = c₂.byte_to_length := by
  obtain ⟨le₁, de₁, fr₁, ll₁⟩ := c₁
  obtain ⟨le₂, de₂, fr₂, ll₂⟩ := c₂
  dsimp only at hle hll
  subst hle hll
  rfl

theorem length_size_bytes_congr (c₁ c₂ : Codec)
    (hll : c₁.ll_format = c₂.ll_format) :
    c₁.length_size_bytes = c₂.length_size_bytes := by
  obtain ⟨le₁, de₁, fr₁, ll₁⟩ := c₁
  obtain ⟨le₂, de₂, fr₂, ll₂⟩ := c₂
  dsimp only at hll
  subst hll
  rfl

theorem serializePrefix_congr (c₁ c₂ : Codec)
    (hle : c₁.length_encoding = c₂.length_encoding)
    (hll : c₁.ll_format = c₂.ll_format) :
    c₁.serializePrefix = c₂.serializePrefix := by
  obtain ⟨le₁, de₁, fr₁, ll₁⟩ := c₁
  obtain ⟨le₂, de₂, fr₂, ll₂⟩ := c₂
  dsimp only at hle hll
  subst hle hll
  rfl

theorem to_read_with_congr (c₁ c₂ : Codec) (hle : c₁.length_encoding = c₂.length_encoding)
    (hll : c₁.ll_format = c₂.ll_format) (fs : FieldSpec) (cursor : List Nat) :
    fs.to_read_with c₁ cursor = fs.to_read_with c₂ cursor := by
  unfold FieldSpec.to_read_with FieldSpec.parseLengthPrefixWith
  rw [byte_to_length_congr c₁ c₂ hle hll, length_size_bytes_congr c₁ c₂ hll]

theorem serialize_field_with_congr (c₁ c₂ : Codec)
    (hle : c₁.length_encoding = c₂.length_encoding)
    (hll : c₁.ll_format = c₂.ll_format) (fs : FieldSpec) (payload : List Nat) :
    fs.serialize_field_with c₁ payload = fs.serialize_field_with c₂ payload := by
  unfold FieldSpec.serialize_field_with
  rw [serializePrefix_congr c₁ c₂ hle hll]

theorem parseFieldsLoop_congr (S : MessageSpec) (c₁ c₂ : Codec)
    (hle : c₁.length_encoding = c₂.length_encoding)
    (hll : c₁.ll_format = c₂.ll_format) :
    ∀ (idxs : List Nat) (fields : List (Option (List Nat))) (cursor : List Nat),
    Message.parseFieldsLoop S c₁ idxs fields cursor =
      Message.parseFieldsLoop S c₂ idxs fields cursor := by
  intro idxs
  induction idxs with
  | nil => intro fields cursor; rfl
  | cons i idxs ih =>
    intro fields cursor
    cases hslot : S.fields.get? i with
    | none => simp only [Message.parseFieldsLoop, hslot]
    | some o =>
      cases o with
      | none =>
        simp only [Message.parseFieldsLoop, hslot]
        exact ih fields cursor
      | some fs =>
        simp only [Message.parseFieldsLoop, hslot]
        rw [to_read_with_congr c₁ c₂ hle hll fs cursor]
        cases fs.to_read_with c₂ cursor with
        | ok p =>
          obtain ⟨nn, cur'⟩ := p
          simp only
          by_cases hlen : cur'.length < nn
          · rw [if_pos hlen, if_pos hlen]
          rw [if_neg hlen, if_neg hlen]
          by_cases hidx : i < fields.length
          · rw [if_pos hidx, if_pos hidx]
            exact ih _ _
          · rw [if_neg hidx, if_neg hidx]
        | err emsg => rfl
        | crash => rfl

theorem serializeFieldsLoop_congr (m : Message) (c₁ c₂ : Codec)
    (hle : c₁.length_encoding = c₂.length_encoding)
    (hll : c₁.ll_format = c₂.ll_format) :
    ∀ idxs : List Nat,
    Message.serializeFieldsLoop m c₁ idxs = Message.serializeFieldsLoop m c₂ idxs := by
  intro idxs
  induction idxs with
  | nil => rfl
  | cons i idxs ih =>
    cases hfld : m.field i with
    | none => simp only [Message.serializeFieldsLoop, hfld, ih]
    | some fld =>
      cases hslot : m.spec.fields.get? i with
      | none => simp only [Message.serializeFieldsLoop, hfld, hslot]
      | some o =>
        cases o with
        | none => simp only [Message.serializeFieldsLoop, hfld, hslot, ih]
        | some fs =>
          simp only [Message.serializeFieldsLoop, hfld, hslot]
          rw [serialize_field_with_congr c₁ c₂ hle hll fs fld, ih]

/-- Claim C10: parsing and serialization are independent of the codec's
`data_encoding` and `framing` options — two codecs agreeing on
`length_encoding` and `ll_format` produce identical `from_bytes` results
(message or error) on every buffer and spec, and identical `serialize`
results on every message. -/
theorem codec_data_encoding_framing_irrelevant (S : MessageSpec) (c₁ c₂ : Codec)
    (B : List Nat) (m : Message)
    (hle : c₁.length_encoding = c₂.length_encoding)
    (hll : c₁.ll_format = c₂.ll_format) :
    Message.from_bytes S c₁ B = Message.from_bytes S c₂ B ∧
    m.serialize c₁ = m.serialize c₂ := by
  constructor
  · unfold Message.from_bytes Message.from_bytes_full Message.parse_fields
    cases MTI.from_cursor B with
    | ok p =>
      obtain ⟨mti, d1⟩ := p
      simp only
      cases BitMap.from_cursor d1 with
      | ok q =>
        obtain ⟨bm, d2⟩ := q
        simp only
        rw [parseFieldsLoop_congr S c₁ c₂ hle hll (BitMap.iter_set bm)
          (List.replicate 128 none) d2]
      | err emsg => rfl
      | crash => rfl
    | err emsg => rfl
    | crash => rfl
  · unfold Message.serialize
    rw [serializeFieldsLoop_congr m c₁ c₂ hle hll (BitMap.iter_set m.bitmap)]

/-- A codec differing from the default in `data_encoding` and `framing`
only. -/
def cOdd : Codec :=
  { length_encoding := .ASCII, data_encoding := .EBCDIC,
    framing := .VHeader, ll_format := .Symbolic }

/-- Claim C10 (witness): on the concrete fixture, the default codec and a
codec with EBCDIC data encoding and VHeader framing parse and serialize
identically. -/
theorem codec_data_encoding_framing_irrelevant_witness :
    Message.from_bytes spec0 Codec.default buf0 = Message.from_bytes spec0 cOdd buf0 ∧
    Message.serialize msg0 Codec.default = Message.serialize msg0 cOdd :=
  codec_data_encoding_framing_irrelevant spec0 Codec.default cOdd buf0 msg0 rfl rfl

end RS8583
